import Mathlib

/-!
Verification of the release content extraction pipeline of `cli/lib/extract.js`.

The JavaScript source is shallowly embedded: every pure computation of the
pipeline becomes a Lean function, filesystem effects become an explicit trace
of `FsOp` values, and the external collaborators (the GitHub API wrapper,
the archive stream, the opaque content transform, the YAML parser) become
fields of an `Env` record of pure functions.

Paths are represented as `String`s; the Node `path` module operations that the
source uses (`split`, `join`, `dirname`, `basename` in POSIX mode) are
modelled character by character following the Node implementations.
-/

/-! ## Character-level path operations -/

/-- Model of JavaScript `path.split('/')` on the character list of a string:
split at every `'/'`, keeping empty segments (`"".split('/') = [""]`). -/
def splitSlashCh : List Char → List (List Char)
  | [] => [[]]
  | c :: rest =>
    if c = '/' then [] :: splitSlashCh rest
    else
      match splitSlashCh rest with
      | [] => [[c]]
      | h :: t => (c :: h) :: t

/-- Model of JavaScript `Array.join('/')`: interleave `'/'` between the
segments, keeping empty segments. -/
def joinSlashCh : List (List Char) → List Char
  | [] => []
  | [x] => x
  | x :: y :: t => x ++ '/' :: joinSlashCh (y :: t)

/-- One step of Node's POSIX path normalization: push a segment onto the
stack of already-normalized segments, dropping `""` and `"."`, and resolving
`".."` (which pops, except at the root of an absolute path or at the front
of a relative path). -/
def normStackCh (abs : Bool) (stack : List (List Char)) (seg : List Char) : List (List Char) :=
  if seg = [] ∨ seg = [ '.' ] then stack
  else if seg = [ '.', '.' ] then
    match stack with
    | [] => if abs then [] else [[ '.', '.' ]]
    | top :: rest => if top = [ '.', '.' ] then [ '.', '.' ] :: top :: rest else rest
  else seg :: stack

/-- The stack of normalized segments of a path: fold `normStackCh` over the
split segments (most recent segment first). -/
def normCore (cs : List Char) : List Char :=
  joinSlashCh (((splitSlashCh cs).foldl (normStackCh (cs.head? == some '/')) []).reverse)

/-- Node's `posix.normalize` after the empty-path substitution: a relative
path that normalized away entirely becomes `"."`. -/
def normBase (cs : List Char) : List Char :=
  if normCore cs = [] ∧ (cs.head? == some '/') = false then [ '.' ] else normCore cs

/-- Node's `posix.normalize` trailing-slash restoration. -/
def normBase2 (cs : List Char) : List Char :=
  if cs.getLast? == some '/' ∧ normBase cs ≠ [] then normBase cs ++ [ '/' ] else normBase cs

/-- Model of Node's `posix.normalize` on character lists. -/
def normPathCh (cs : List Char) : List Char :=
  if cs.head? == some '/' then '/' :: normBase2 cs else normBase2 cs

/-- Model of Node's `posix.join` on character lists: drop empty arguments,
join the others with `'/'`, and normalize (`join()` with no nonempty
arguments yields `"."`). -/
def pjoinListCh (args : List (List Char)) : List Char :=
  if args.filter (· ≠ []) = [] then [ '.' ]
  else normPathCh (joinSlashCh (args.filter (· ≠ [])))

/-- The backwards scan of Node's `posix.dirname`: starting from the end of
the path (index 0 excluded), drop the trailing slashes and the basename;
what remains ends at the slash before the basename, so its length is the
index at which the path is cut. -/
def dirnameRev2 (cs : List Char) : List Char :=
  ((cs.drop 1).reverse.dropWhile (· = '/')).dropWhile (· ≠ '/')

/-- Model of Node's `posix.dirname` on character lists, following the Node
implementation: scan backwards from the end (never looking at index 0),
skip trailing slashes, skip the basename, and cut at the slash before it. -/
def dirnameCh (cs : List Char) : List Char :=
  if cs = [] then [ '.' ]
  else if (dirnameRev2 cs).length = 0 then
    (if cs.head? == some '/' then [ '/' ] else [ '.' ])
  else if (cs.head? == some '/') = true ∧ (dirnameRev2 cs).length = 1 then [ '/', '/' ]
  else cs.take (dirnameRev2 cs).length

/-- Model of Node's `posix.basename` on character lists: drop trailing
slashes, then take the final run of non-slash characters (`"/"` for an
all-slash nonempty path, `""` for the empty path). -/
def basenameCh (cs : List Char) : List Char :=
  if cs.reverse.dropWhile (· = '/') = [] then (if cs.contains '/' then [ '/' ] else [])
  else ((cs.reverse.dropWhile (· = '/')).takeWhile (· ≠ '/')).reverse

/-! ## String-level wrappers -/

/-- `path.split('/')` on strings. -/
def splitSlash (s : String) : List String := (splitSlashCh s.data).map String.mk

/-- `Array.join('/')` on strings (used for `tar`'s `strip` renaming). -/
def joinSlash (l : List String) : String := String.mk (joinSlashCh (l.map String.data))

/-- `posix.join(...args)` on strings. -/
def pjoinList (args : List String) : String := String.mk (pjoinListCh (args.map String.data))

/-- `posix.join(a, b)` on strings. -/
def pjoin (a b : String) : String := pjoinList [a, b]

/-- `posix.dirname` on strings. -/
def dirname (p : String) : String := String.mk (dirnameCh p.data)

/-- `posix.basename` on strings. -/
def basename (p : String) : String := String.mk (basenameCh p.data)

/-! ## The changelog `>` escape and JS `Set` deduplication -/

/-- Model of the JavaScript global regex replacement
`s.replace(/([^\\])>/g, '$1\>')`: scanning left to right, a non-backslash
character followed by `'>'` is replaced by the character, a backslash and the
`'>'`; matches do not overlap, and scanning resumes after each match. -/
def escapeGtCh : List Char → List Char
  | [] => []
  | [c] => [c]
  | c :: d :: rest =>
    if c ≠ '\\' ∧ d = '>' then c :: '\\' :: '>' :: escapeGtCh rest
    else c :: escapeGtCh (d :: rest)

/-- String wrapper for `escapeGtCh`. -/
def escapeGtStr (s : String) : String := String.mk (escapeGtCh s.data)

/-- Model of iterating a JavaScript `Set` built from a list: keep the first
occurrence of each element, in insertion order.  `seen` accumulates the
elements already emitted. -/
def jsSetDedupAux {α : Type} [DecidableEq α] (seen : List α) : List α → List α
  | [] => []
  | a :: l => if a ∈ seen then jsSetDedupAux seen l else a :: jsSetDedupAux (a :: seen) l

/-- `[...new Set(l)]` in JavaScript. -/
def jsSetDedup {α : Type} [DecidableEq α] (l : List α) : List α := jsSetDedupAux [] l

/-! ## Data model -/

/-- A filesystem effect performed by the pipeline.  `rm` models
`fs.rm(p, {force: true, recursive: true})`, `mkdir` models
`fs.mkdir(p, {recursive: true})`, `write` models `fs.writeFile(p, content)`. -/
inductive FsOp where
  | rm (path : String)
  | mkdir (path : String)
  | write (path content : String)
deriving DecidableEq, Repr

/-- The slice of the package manifest the pipeline reads
(`manifest._resolved` and `manifest._from`). -/
structure Manifest where
  _resolved : String
  _from : String
deriving DecidableEq, Repr

/-- A release record, with the fields `extract.js` reads and writes.
`resolved` and `spec` are `Option`s because they may be absent before
resolution (and `resolved` holds the previously stored content-address on
input); `src` is populated lazily by the orchestrator. -/
structure Release where
  id : String
  version : String
  branch : String
  manifest : Manifest
  resolved : Option String
  spec : Option String
  useBranch : Bool
  prerelease : Bool
  url : String
  urlPrefix : String
  src : Option String
deriving DecidableEq, Repr

/-- A node of the navigation tree parsed from `nav.yml`.  `children` is
`Option (List NavNode)` because an authored node may lack the field
entirely (JS `undefined`), which the code treats differently from `[]`. -/
inductive NavNode where
  | mk (title url : String) (shortName description : Option String)
       (children : Option (List NavNode))

def NavNode.title : NavNode → String
  | NavNode.mk t _ _ _ _ => t

def NavNode.url : NavNode → String
  | NavNode.mk _ u _ _ _ => u

def NavNode.shortName : NavNode → Option String
  | NavNode.mk _ _ s _ _ => s

def NavNode.description : NavNode → Option String
  | NavNode.mk _ _ _ d _ => d

def NavNode.children : NavNode → Option (List NavNode)
  | NavNode.mk _ _ _ _ c => c

/-- Replace the children of a node, keeping every other field. -/
def NavNode.setChildren : NavNode → Option (List NavNode) → NavNode
  | NavNode.mk t u s d _, c => NavNode.mk t u s d c

/-- The `{path, children}` record returned by `getNav`. -/
structure NavTree where
  path : String
  children : Option (List NavNode)

/-- The frontmatter object handed to the content transform (`github_path`,
`title`, and for index pages a `shortName`). -/
structure Frontmatter where
  github_path : String
  title : String
  shortName : Option String
deriving DecidableEq, Repr

/-- The second argument of `Transform` / `Transform.sync`. -/
structure TransformCtx where
  release : Release
  path : String
  frontmatter : Option Frontmatter

/-- One file entry of the streamed archive (`tar`-like: path plus content). -/
structure TarEntry where
  path : String
  content : String
deriving DecidableEq, Repr

/-- An entry of a GitHub directory listing (`gh.getDirectory`). -/
structure DirEntry where
  name : String
  sha : String
deriving DecidableEq, Repr

/-- A file record returned by `gh.getAllFiles` (path plus blob sha). -/
structure FileRec where
  path : String
  sha : String
deriving DecidableEq, Repr

/-- The external collaborators of `extract.js`, as pure functions:
the GitHub API wrapper `gh`, the archive stream (`pacote.tarball.stream`
piped through `tar.x`, abstracted as the list of file entries of the
archive identified by `spec`/`resolved`), the opaque content transform
(`Transform` and `Transform.sync` share one model), and `yaml.parse`
composed with `toString` for the navigation description. -/
structure Env where
  getLatestSha : String → String
  pathExists : String → String → Option String
  getFileRefPath : String → String → String
  getDirectory : String → String → List DirEntry
  getAllFiles : String → List FileRec
  getFileSha : String → String
  tarball : Option String → Option String → List TarEntry
  transform : String → TransformCtx → String
  parseNav : String → Option (List NavNode)

/-- The failure modes of one release import: the explicit
`Could not find source dir` throw, a failed fetch of the navigation
description, and the unguarded runtime `TypeError`s of the source
(`paths.find(...).sha` in `unpackTree`, `navSection.title` in index
generation, and the navigation pushes in `writeChangelog`). -/
inductive UErr where
  | srcDirNotFound
  | navPathNotFound
  | treeDirNotFound
  | navMatchNotFound
  | typeError
deriving DecidableEq, Repr

/-- The release record plus navigation children returned by a successful
`unpackRelease` (`{...release, nav: nav.children}`). -/
structure ReleaseResult where
  release : Release
  nav : List NavNode

/-! ## Navigation URL rewriting (`getNav`'s inner `rewriteUrls`) -/

mutual

/-- Rewrite one navigation node: prepend the release URL to its `url` and
recurse into its children (the body of the arrow function inside
`rewriteUrls`). -/
def rewriteNode (rurl : String) : NavNode → NavNode
  | NavNode.mk t u s d c => NavNode.mk t (rurl ++ u) s d (rewriteChildren rurl c)

/-- `nodes?.map(...)`: an absent list stays absent. -/
def rewriteChildren (rurl : String) : Option (List NavNode) → Option (List NavNode)
  | none => none
  | some ns => some (rewriteList rurl ns)

/-- Map `rewriteNode` over a list of nodes. -/
def rewriteList (rurl : String) : List NavNode → List NavNode
  | [] => []
  | n :: ns => rewriteNode rurl n :: rewriteList rurl ns

end

/-- The source's `rewriteUrls`, applied to the parsed navigation
description. -/
def rewriteUrls (rurl : String) (nodes : Option (List NavNode)) : Option (List NavNode) :=
  rewriteChildren rurl nodes

/-- `getNav({path, release})`: fetch the navigation description at `path`
on the release's branch, parse it, and rewrite every URL. -/
def getNav (env : Env) (release : Release) (path : String) : NavTree :=
  ⟨ path, rewriteUrls (Release.url release) (env.parseNav (env.getFileRefPath (Release.branch release) path)) ⟩

/-! ## Release resolution (`resolveRelease`) -/

/-- The `{force, prerelease}` options of `resolveRelease`. -/
structure ResolveOpts where
  force : Bool
  prerelease : Bool
deriving DecidableEq, Repr

/-- `resolveRelease({resolved: current, ...release}, {force, prerelease})`:
skip (return `none`) a prerelease the caller did not opt into; resolve the
new content-address (latest branch sha when `useBranch`, otherwise the
manifest's `_resolved`/`_from`); skip when it matches the previously stored
one and `force` is unset; otherwise return the resolved release.  The
destructuring removes the stored `resolved` from the returned record before
the new one is assigned. -/
def resolveRelease (env : Env) (rel : Release) (o : ResolveOpts) : Option Release :=
  let current := Release.resolved rel
  let release := { rel with resolved := none }
  if Release.prerelease release && !o.prerelease then none
  else
    let release :=
      if Release.useBranch release then
        { release with resolved := some (env.getLatestSha (Release.branch release)) }
      else
        { release with resolved := some (Release.manifest release)._resolved,
                       spec := some (Release.manifest release)._from }
    if Release.resolved release = current && !o.force then none
    else some release

/-! ## Archive extraction (`unpackTarball`) -/

/-- The `filter` callback handed to `tar.x`: split the entry path, take the
segment range `[strip, dirParts.length + strip)` with `strip = 1`, and
compare `join(...prefixParts)` with `join(...dirParts)`. -/
def tarFilter (dirParts : List String) (path : String) : Bool :=
  pjoinList (((splitSlash path).drop 1).take dirParts.length) == pjoinList dirParts

/-- `tar.x`'s `strip` renaming: drop the first `strip` path segments and
rejoin with `'/'`. -/
def stripPath (strip : Nat) (path : String) : String :=
  joinSlash ((splitSlash path).drop strip)

/-- `unpackTarball({release, cwd, dir})`: stream the archive for the
release's `spec`/`resolved`, keep the entries accepted by `tarFilter`,
record each kept entry's stripped path in `result`, and write its
transformed content under `cwd` at the stripped path. -/
def unpackTarball (env : Env) (release : Release) (cwd dir : String) :
    List String × List FsOp :=
  let strip := 1
  let dirParts := splitSlash dir
  let kept := (env.tarball (Release.spec release) (Release.resolved release)).filter
    (fun e => tarFilter dirParts (TarEntry.path e))
  ( kept.map (fun e => stripPath (dirParts.length + strip) (TarEntry.path e)),
    kept.map (fun e =>
      FsOp.write (pjoin cwd (stripPath (dirParts.length + strip) (TarEntry.path e)))
        (env.transform (TarEntry.content e)
          ⟨ release, stripPath (dirParts.length + strip) (TarEntry.path e), none ⟩)) )

/-! ## Tree fetching (`unpackTree`) -/

/-- `unpackTree({release, cwd, dir})`: find `dir`'s sha by listing its
parent and matching the final path segment (an unguarded `.sha` access: no
match is a `TypeError`), enumerate all files under that sha, create the
distinct output directories, then write every transformed file. -/
def unpackTree (env : Env) (release : Release) (cwd dir : String) :
    Except UErr (List String × List FsOp) :=
  let dirParts := splitSlash dir
  let child := (dirParts.getLast?).getD ""
  let parent := pjoinList dirParts.dropLast
  match (env.getDirectory (Release.branch release) parent).find?
      (fun p => DirEntry.name p == child) with
  | none => Except.error UErr.treeDirNotFound
  | some entry =>
    let files := env.getAllFiles (DirEntry.sha entry)
    let dirs := jsSetDedup (files.map (fun f => pjoin cwd (dirname (FileRec.path f))))
    Except.ok
      ( files.map FileRec.path,
        dirs.map FsOp.mkdir ++
        files.map (fun f =>
          FsOp.write (pjoin cwd (FileRec.path f))
            (env.transform (env.getFileSha (FileRec.sha f)) ⟨ release, FileRec.path f, none ⟩)) )

/-! ## Changelog merging (`writeChangelog`) -/

/-- The navigation leaf `writeChangelog` pushes:
`{title, url: release.url + '/' + contentPath, description}`. -/
def changelogNode (release : Release) (contentPath : String) : NavNode :=
  NavNode.mk "Changelog" (Release.url release ++ "/" ++ contentPath) none
    (some "Changelog notes for each version") none

/-- The navigation mutation of `writeChangelog`:
`nav.children[nav.children.length - 1].children.push(...)` — append the
changelog leaf to the children of the last top-level section.  An absent
children array (of the navigation or of the last section) or an empty
navigation is an unguarded `TypeError`. -/
def changelogNavPush (release : Release) (contentPath : String) :
    Option (List NavNode) → Except UErr (List NavNode)
  | none => Except.error UErr.typeError
  | some l =>
    match l.getLast? with
    | none => Except.error UErr.typeError
    | some last =>
      match NavNode.children last with
      | none => Except.error UErr.typeError
      | some cs =>
        Except.ok (l.dropLast ++
          [ NavNode.setChildren last (some (cs ++ [ changelogNode release contentPath ])) ])

/-- `writeChangelog({release, nav, cwd, srcPath, contentPath})`: fetch the
changelog, escape `>`, transform it with `{github_path, title}` frontmatter,
write it at `contentPath + '.md'`, and push the changelog leaf onto the
children of the last top-level navigation section. -/
def writeChangelog (env : Env) (release : Release) (navChildren : Option (List NavNode))
    (cwd srcPath contentPath : String) : Except UErr (List NavNode) × List FsOp :=
  ( changelogNavPush release contentPath navChildren,
    [ FsOp.write (pjoin cwd (contentPath ++ ".md"))
        (env.transform (escapeGtStr (env.getFileRefPath (Release.branch release) srcPath))
          ⟨ release, contentPath, some ⟨ srcPath, "Changelog", none ⟩ ⟩) ] )

/-! ## Index generation and orchestration (`unpackRelease`) -/

/-- The directory list driving index generation:
`['', ...new Set(files.map((f) => dirname(f)))]`. -/
def indexDirs (files : List String) : List String :=
  "" :: jsSetDedup (files.map dirname)

/-- The body of the `dirs.map` callback of index generation: find the
matching navigation section (for the root directory, scan `baseNav` for the
entry whose URL basename is the release's `urlPrefix`; otherwise scan the
release's navigation children for the entry whose URL basename is the
directory name), then write the synthetic index document.  The lookup's
result is dereferenced without a guard (`navSection.title`), so a missing
match is a `TypeError`, modelled as `UErr.navMatchNotFound`; `nav.children`
being absent is likewise a `TypeError`. -/
def indexEntry (env : Env) (release : Release) (nav : NavTree) (baseNav : List NavNode)
    (cwd dir : String) : Except UErr (String × FsOp) :=
  match (if dir = "" then
           Except.ok (baseNav.find?
             (fun c => basename (NavNode.url c) == Release.urlPrefix release))
         else
           match NavTree.children nav with
           | none => Except.error UErr.typeError
           | some cs => Except.ok (cs.find? (fun c => basename (NavNode.url c) == dir))
         : Except UErr (Option NavNode)) with
  | Except.error e => Except.error e
  | Except.ok none => Except.error UErr.navMatchNotFound
  | Except.ok (some sec) =>
    Except.ok (pjoin dir "index.mdx",
      FsOp.write (pjoin cwd (pjoin dir "index.mdx"))
        (env.transform "<Index depth=\"1\" />\n"
          ⟨ release, pjoin dir "index.mdx",
            some ⟨ NavTree.path nav, NavNode.title sec, NavNode.shortName sec ⟩ ⟩))

/-- Sequential collection of the per-directory index results: stop at the
first failure, keeping the effects already performed. -/
def collectIdx : List (Except UErr (String × FsOp)) → Except UErr (List String) × List FsOp
  | [] => (Except.ok [], [])
  | Except.error e :: _ => (Except.error e, [])
  | Except.ok (p, op) :: rest =>
    let (r, ops) := collectIdx rest
    (r.map (p :: ·), op :: ops)

/-- `join('docs', 'content')`, the built docs directory. -/
def builtPathConst : String := pjoinList [ "docs", "content" ]

/-- `join('docs', 'lib', 'content')`, the docs source directory. -/
def srcPathConst : String := pjoinList [ "docs", "lib", "content" ]

/-- The source-directory probe of the orchestrator:
`await gh.pathExists(branch, srcPath) ?? await gh.pathExists(branch, builtPath)`. -/
def probeSrc (env : Env) (branch : String) : Option String :=
  (env.pathExists branch srcPathConst).orElse (fun _ => env.pathExists branch builtPathConst)

/-- The navigation-file probe of the orchestrator:
`await gh.pathExists(branch, join(srcPath, 'nav.yml')) ?? await gh.pathExists(branch, join('docs', 'nav.yml'))`. -/
def probeNav (env : Env) (branch : String) : Option String :=
  (env.pathExists branch (pjoin srcPathConst "nav.yml")).orElse
    (fun _ => env.pathExists branch (pjoin "docs" "nav.yml"))

/-- The `{contentPath, baseNav, force = false, prerelease = false}` options
object of `unpackRelease`. -/
structure UnpackOpts where
  contentPath : String
  baseNav : List NavNode
  force : Bool
  prerelease : Bool

/-- Everything `unpackRelease` does after the output directory has been
recreated, producing the result (or the error it throws) and the trace of
filesystem effects performed after the `rm`/`mkdir` pair. -/
def unpackReleaseBody (env : Env) (release : Release) (o : UnpackOpts) (cwd : String) :
    Except UErr ReleaseResult × List FsOp :=
  match probeSrc env (Release.branch release) with
  | none => (Except.error UErr.srcDirNotFound, [])
  | some src =>
    let release := { release with src := some src }
    match probeNav env (Release.branch release) with
    | none => (Except.error UErr.navPathNotFound, [])
    | some navPath =>
      let nav := getNav env release navPath
      match (if Release.useBranch release then unpackTree env release cwd src
             else Except.ok (unpackTarball env release cwd builtPathConst)) with
      | Except.error e => (Except.error e, [])
      | Except.ok (files, exOps) =>
        let dirs := indexDirs files
        let (idxRes, idxOps) := collectIdx
          (dirs.map (fun d => indexEntry env release nav o.baseNav cwd d))
        match idxRes with
        | Except.error e => (Except.error e, exOps ++ idxOps)
        | Except.ok _indexes =>
          let (clRes, clOps) := writeChangelog env release (NavTree.children nav) cwd
            "CHANGELOG.md" (pjoin "using-npm" "changelog")
          match clRes with
          | Except.error e => (Except.error e, exOps ++ idxOps ++ clOps)
          | Except.ok newChildren =>
            (Except.ok ⟨ release, newChildren ⟩, exOps ++ idxOps ++ clOps)

/-- `unpackRelease(_release, {contentPath, baseNav, force, prerelease})`:
resolve the release (returning nothing on skip, before any filesystem
operation), recreate the output directory `join(contentPath, release.id)`
from scratch, and run the body.  The first component is the returned value
(or thrown error); the second is the ordered trace of filesystem effects. -/
def unpackRelease (env : Env) (rel : Release) (o : UnpackOpts) :
    Except UErr (Option ReleaseResult) × List FsOp :=
  match resolveRelease env rel ⟨ o.force, o.prerelease ⟩ with
  | none => (Except.ok none, [])
  | some release =>
    let cwd := pjoin o.contentPath (Release.id release)
    let (res, ops) := unpackReleaseBody env release o cwd
    (res.map some, FsOp.rm cwd :: FsOp.mkdir cwd :: ops)

/-! ## C1: the skip conditions of `resolveRelease` -/

/-- The freshly resolved content-address `resolveRelease` computes: the
latest sha of the branch when `useBranch`, otherwise the manifest's
`_resolved`. -/
def newResolved (env : Env) (rel : Release) : String :=
  if Release.useBranch rel then env.getLatestSha (Release.branch rel)
  else (Release.manifest rel)._resolved

/-- C1: `resolveRelease` returns the no-op signal `none` exactly when the
release is a prerelease the caller did not opt into, or the freshly
resolved content-address equals the previously stored one and `force` is
unset; in every other case it returns the release with `resolved` (and,
for manifest-based releases, `spec`) populated — in particular `force =
true` always yields a non-skip result once the prerelease gate passes. -/
theorem c1_resolve_skip_iff (env : Env) (rel : Release) (o : ResolveOpts) :
    (resolveRelease env rel o = none ↔
      (Release.prerelease rel = true ∧ o.prerelease = false) ∨
      (some (newResolved env rel) = Release.resolved rel ∧ o.force = false)) ∧
    (∀ r, resolveRelease env rel o = some r →
      Release.resolved r = some (newResolved env rel) ∧
      (Release.useBranch rel = true → Release.spec r = Release.spec rel) ∧
      (Release.useBranch rel = false → Release.spec r = some (Release.manifest rel)._from)) := by
  unfold resolveRelease newResolved
  cases hp : Release.prerelease rel <;> cases hop : o.prerelease <;>
    cases hub : Release.useBranch rel <;> cases hf : o.force <;>
      by_cases hr : some (if Release.useBranch rel then env.getLatestSha (Release.branch rel)
          else (Release.manifest rel)._resolved) = Release.resolved rel <;>
        simp_all

/-- Witness for C1: a release whose fresh resolution matches the stored
content-address is skipped when `force` is unset. -/
theorem c1_resolve_skip_iff_witness :
    resolveRelease
      ⟨ fun _ => "sha-abc", fun _ _ => none, fun _ _ => "", fun _ _ => [], fun _ => [],
        fun _ => "", fun _ _ => [], fun c _ => c, fun _ => none ⟩
      { id := "v9", version := "9.0.0", branch := "latest", manifest := ⟨ "sha-abc", "npm@9" ⟩,
        resolved := some "sha-abc", spec := none, useBranch := false, prerelease := false,
        url := "/cli/v9", urlPrefix := "v9", src := none }
      ⟨ false, false ⟩ = none := by
  exact (c1_resolve_skip_iff _ _ _).1.mpr (Or.inr (by constructor <;> rfl))

/-! ## Concrete fixtures shared by the witnesses -/

/-- A concrete manifest. -/
def manW : Manifest := ⟨ "sha-abc", "npm@9.0.0" ⟩

/-- A concrete manifest-based release, not yet imported. -/
def relW : Release :=
  { id := "v9", version := "9.0.0", branch := "latest", manifest := manW,
    resolved := none, spec := none, useBranch := false, prerelease := false,
    url := "/cli/v9", urlPrefix := "v9", src := none }

/-- The same release with the already-imported content-address stored. -/
def relWskip : Release := { relW with resolved := some "sha-abc" }

/-- A concrete parsed navigation description. -/
def navW : List NavNode :=
  [ NavNode.mk "Guide" "/guide" none none (some []),
    NavNode.mk "Using npm" "/using-npm" (some "using") none
      (some [ NavNode.mk "Scripts" "/using-npm/scripts" none none none ]) ]

/-- A concrete base navigation list whose single entry matches `relW`'s
URL prefix. -/
def baseNavW : List NavNode := [ NavNode.mk "CLI v9" "/cli/v9" (some "v9") none none ]

/-- A concrete environment: a branch sha, a source tree whose docs live at
`docs/lib/content`, a two-file remote tree, a three-entry archive, a
tagging transform and a fixed parsed navigation. -/
def envW : Env :=
  { getLatestSha := fun _ => "branch-sha",
    pathExists := fun _ p =>
      if p = "docs/lib/content" ∨ p = "docs/lib/content/nav.yml" then some p else none,
    getFileRefPath := fun _ p => "file:" ++ p,
    getDirectory := fun _ _ => [ ⟨ "lib", "s1" ⟩, ⟨ "content", "abc123" ⟩ ],
    getAllFiles := fun _ => [ ⟨ "guide/intro.md", "f1" ⟩, ⟨ "cmd/a.md", "f2" ⟩ ],
    getFileSha := fun s => "blob:" ++ s,
    tarball := fun _ _ => [ ⟨ "pkg-1.0.0/docs/content/guide/intro.md", "C1" ⟩,
                            ⟨ "pkg-1.0.0/README.md", "R" ⟩,
                            ⟨ "pkg-1.0.0/docs/lib/content/x.md", "X" ⟩ ],
    transform := fun c _ => "T(" ++ c ++ ")",
    parseNav := fun _ => some navW }

/-- Concrete `unpackRelease` options. -/
def optsW : UnpackOpts := ⟨ "content", baseNavW, false, false ⟩

/-! ## C4: skip performs no filesystem operation -/

/-- C4: when `resolveRelease` signals skip, `unpackRelease` returns nothing
and its filesystem trace is empty — the output directory is neither removed
nor recreated and nothing is written; when it does not skip, the first two
trace entries are exactly the remove-and-recreate of the output directory,
so the destructive pair occurs only after a non-skip resolution. -/
theorem c4_skip_no_fs (env : Env) (rel : Release) (o : UnpackOpts) :
    (resolveRelease env rel ⟨ o.force, o.prerelease ⟩ = none →
      unpackRelease env rel o = (Except.ok none, [])) ∧
    (∀ r, resolveRelease env rel ⟨ o.force, o.prerelease ⟩ = some r →
      (unpackRelease env rel o).2.take 2 =
        [ FsOp.rm (pjoin o.contentPath (Release.id r)),
          FsOp.mkdir (pjoin o.contentPath (Release.id r)) ]) := by
  constructor
  · intro h; unfold unpackRelease; rw [h]
  · intro r h; unfold unpackRelease; rw [h]; simp [List.take]

/-- Witness for C4: the concrete up-to-date release is skipped with an
empty trace, and the concrete stale release's trace starts with the
remove-and-recreate pair. -/
theorem c4_skip_no_fs_witness :
    unpackRelease envW relWskip optsW = (Except.ok none, []) ∧
    (unpackRelease envW relW optsW).2.take 2 =
      [ FsOp.rm (pjoin "content" "v9"), FsOp.mkdir (pjoin "content" "v9") ] := by
  constructor
  · exact (c4_skip_no_fs envW relWskip optsW).1 (by rfl)
  · exact (c4_skip_no_fs envW relW optsW).2
      { relW with resolved := some "sha-abc", spec := some "npm@9.0.0" } (by rfl)

/-! ## C5: index coverage -/

theorem mem_jsSetDedupAux {α : Type} [DecidableEq α] (x : α) (l : List α) :
    ∀ seen, x ∈ jsSetDedupAux seen l ↔ x ∈ l ∧ x ∉ seen := by
  induction l with
  | nil => intro seen; simp [jsSetDedupAux]
  | cons a l ih =>
    intro seen
    by_cases h : a ∈ seen
    · rw [jsSetDedupAux, if_pos h, ih seen]
      constructor
      · exact fun hx => ⟨ List.mem_cons_of_mem a hx.1, hx.2 ⟩
      · rintro ⟨ hm, hs ⟩
        rcases List.mem_cons.mp hm with rfl | hl
        · exact absurd h hs
        · exact ⟨ hl, hs ⟩
    · rw [jsSetDedupAux, if_neg h]
      simp only [List.mem_cons, ih (a :: seen), not_or]
      constructor
      · rintro (rfl | ⟨ hl, hxa, hs ⟩)
        · exact ⟨ Or.inl rfl, h ⟩
        · exact ⟨ Or.inr hl, hs ⟩
      · rintro ⟨ hm, hs ⟩
        rcases hm with rfl | hl
        · exact Or.inl rfl
        · by_cases hxa : x = a
          · exact Or.inl hxa
          · exact Or.inr ⟨ hl, hxa, hs ⟩

theorem mem_jsSetDedup {α : Type} [DecidableEq α] (x : α) (l : List α) :
    x ∈ jsSetDedup l ↔ x ∈ l := by
  rw [jsSetDedup, mem_jsSetDedupAux]; simp

theorem nodup_jsSetDedupAux {α : Type} [DecidableEq α] (l : List α) :
    ∀ seen, (jsSetDedupAux seen l).Nodup := by
  induction l with
  | nil => intro _; simp [jsSetDedupAux]
  | cons a l ih =>
    intro seen
    rw [jsSetDedupAux]
    split
    · exact ih seen
    · refine List.nodup_cons.mpr ⟨ ?_, ih (a :: seen) ⟩
      intro hmem
      rw [mem_jsSetDedupAux] at hmem
      exact hmem.2 (List.mem_cons_self a seen)

theorem nodup_jsSetDedup {α : Type} [DecidableEq α] (l : List α) :
    (jsSetDedup l).Nodup := nodup_jsSetDedupAux l []

theorem dirnameCh_ne_nil (cs : List Char) : dirnameCh cs ≠ [] := by
  unfold dirnameCh
  split_ifs with h0 h1 h2 h3
  · simp
  · simp
  · simp
  · simp
  · simp [List.take_eq_nil_iff, h0, h1]

/-- `posix.dirname` never returns the empty string. -/
theorem dirname_ne_empty (p : String) : dirname p ≠ "" := by
  intro h
  exact dirnameCh_ne_nil p.data (congrArg String.data h)

/-- C5: the directory list driving index generation contains exactly the
root `""` together with `dirname(f)` for each extracted file `f`, with no
duplicates and no omissions — one index document per distinct directory. -/
theorem c5_index_coverage (files : List String) :
    (∀ d, d ∈ indexDirs files ↔ (d = "" ∨ ∃ f ∈ files, d = dirname f)) ∧
    (indexDirs files).Nodup := by
  constructor
  · intro d
    simp only [indexDirs, List.mem_cons, mem_jsSetDedup, List.mem_map]
    constructor
    · rintro (rfl | ⟨ f, hf, rfl ⟩)
      · exact Or.inl rfl
      · exact Or.inr ⟨ f, hf, rfl ⟩
    · rintro (rfl | ⟨ f, hf, rfl ⟩)
      · exact Or.inl rfl
      · exact Or.inr ⟨ f, hf, rfl ⟩
  · refine List.nodup_cons.mpr ⟨ ?_, nodup_jsSetDedup _ ⟩
    intro h
    obtain ⟨ f, -, hf ⟩ := List.mem_map.mp ((mem_jsSetDedup _ _).mp h)
    exact dirname_ne_empty f hf

/-! ## C3: the navigation URL rewrite -/

/-- Address a node of a navigation tree by the child indices leading to it:
`[]` is the node itself, `i :: p` descends into child `i`. -/
def getAt : NavNode → List Nat → Option NavNode
  | n, [] => some n
  | n, i :: p =>
    match NavNode.children n with
    | none => none
    | some cs =>
      match cs.get? i with
      | none => none
      | some m => getAt m p

/-- Address a node of a parsed navigation description (an optional node
list) by a top-level index and a child path. -/
def navGetAt (onodes : Option (List NavNode)) (i : Nat) (p : List Nat) : Option NavNode :=
  match onodes with
  | none => none
  | some ns =>
    match ns.get? i with
    | none => none
    | some n => getAt n p

/-- The per-node specification of the URL rewrite, stated from the spec's
words: the node exists after exactly when it existed before, its `url`
becomes `rurl ++` the original, every other field is unchanged, and its
child list keeps its presence and length (so absent stays absent and empty
stays empty). -/
def navRelAt (rurl : String) : Option NavNode → Option NavNode → Prop
  | none, none => True
  | some b, some a =>
      NavNode.title a = NavNode.title b ∧
      NavNode.shortName a = NavNode.shortName b ∧
      NavNode.description a = NavNode.description b ∧
      NavNode.url a = rurl ++ NavNode.url b ∧
      (NavNode.children a).map List.length = (NavNode.children b).map List.length
  | _, _ => False

theorem rewriteList_eq_map (rurl : String) : ∀ l, rewriteList rurl l = l.map (rewriteNode rurl)
  | [] => rfl
  | n :: ns => by rw [rewriteList, rewriteList_eq_map rurl ns, List.map_cons]

theorem getAt_rewriteNode (rurl : String) (p : List Nat) :
    ∀ n, getAt (rewriteNode rurl n) p = (getAt n p).map (rewriteNode rurl) := by
  induction p with
  | nil => intro n; rfl
  | cons i p ih =>
    intro n
    cases n with
    | mk t u s d c =>
      cases c with
      | none => simp [rewriteNode, rewriteChildren, getAt, NavNode.children]
      | some cs =>
        simp only [rewriteNode, rewriteChildren, getAt, NavNode.children,
          rewriteList_eq_map, List.get?_map]
        cases h : cs.get? i with
        | none => simp
        | some m => simp [ih m]

/-- C3: for every parsed navigation description and release URL, the
rewrite satisfies, at every node address (root nodes and all descendants):
the rewritten node's `url` is the release URL concatenated with the
original `url`, all other fields are unchanged, tree shape (presence of
each node, child counts, hence ordering) is preserved exactly, and an
absent or empty child sequence stays absent or empty. -/
theorem c3_nav_url_rewrite (rurl : String) (onodes : Option (List NavNode)) :
    (rewriteUrls rurl onodes).map List.length = onodes.map List.length ∧
    ∀ i p, navRelAt rurl (navGetAt onodes i p) (navGetAt (rewriteUrls rurl onodes) i p) := by
  constructor
  · cases onodes <;> simp [rewriteUrls, rewriteChildren, rewriteList_eq_map]
  · intro i p
    cases onodes with
    | none => trivial
    | some ns =>
      simp only [rewriteUrls, rewriteChildren, navGetAt, rewriteList_eq_map, List.get?_map]
      cases h : ns.get? i with
      | none => trivial
      | some n =>
        simp only [Option.map_some']
        rw [getAt_rewriteNode]
        cases hg : getAt n p with
        | none => trivial
        | some m =>
          simp only [Option.map_some']
          cases m with
          | mk t u s d c =>
            refine ⟨ rfl, rfl, rfl, rfl, ?_ ⟩
            cases c <;>
              simp [rewriteNode, rewriteChildren, NavNode.children, rewriteList_eq_map]

/-! ## C6: the navigation lookup of index generation -/

theorem find?_eq_some_first {α : Type} (p : α → Bool) (l : List α) :
    ∀ x, l.find? p = some x →
      ∃ l1 l2, l = l1 ++ x :: l2 ∧ p x = true ∧ ∀ y ∈ l1, p y = false := by
  induction l with
  | nil => intro x h; simp at h
  | cons a l ih =>
    intro x h
    by_cases hp : p a = true
    · rw [List.find?_cons_of_pos _ hp] at h
      obtain rfl := Option.some.inj h
      exact ⟨ [], l, rfl, hp, by simp ⟩
    · rw [List.find?_cons_of_neg _ (by simpa using hp)] at h
      obtain ⟨ l1, l2, heq, hx, hall ⟩ := ih x h
      refine ⟨ a :: l1, l2, by rw [heq, List.cons_append], hx, ?_ ⟩
      intro y hy
      rcases List.mem_cons.mp hy with rfl | hy2
      · exact Bool.not_eq_true _ ▸ hp
      · exact hall y hy2

/-- C6: for a non-root directory the matching navigation node is the first
entry of the release's navigation children whose URL basename equals the
directory name; for the root directory it is the first entry of the
supplied base navigation whose URL basename equals the release's
`urlPrefix`.  When no match exists the null-valued lookup is dereferenced
immediately, so the entry fails with the unguarded-crash error
`navMatchNotFound` rather than producing a handled value; when a match
exists, its `title` and `shortName` flow into the written index document. -/
theorem c6_index_nav_lookup (env : Env) (rel : Release) (nav : NavTree)
    (baseNav : List NavNode) (cwd : String) :
    (∀ d cs, d ≠ "" → NavTree.children nav = some cs →
      ((cs.find? (fun c => basename (NavNode.url c) == d) = none →
          indexEntry env rel nav baseNav cwd d = Except.error UErr.navMatchNotFound) ∧
       (∀ n, cs.find? (fun c => basename (NavNode.url c) == d) = some n →
          (∃ l1 l2, cs = l1 ++ n :: l2 ∧ basename (NavNode.url n) = d ∧
            ∀ m ∈ l1, basename (NavNode.url m) ≠ d) ∧
          indexEntry env rel nav baseNav cwd d =
            Except.ok (pjoin d "index.mdx",
              FsOp.write (pjoin cwd (pjoin d "index.mdx"))
                (env.transform "<Index depth=\"1\" />\n"
                  ⟨ rel, pjoin d "index.mdx",
                    some ⟨ NavTree.path nav, NavNode.title n, NavNode.shortName n ⟩ ⟩))))) ∧
    ((baseNav.find? (fun c => basename (NavNode.url c) == Release.urlPrefix rel) = none →
        indexEntry env rel nav baseNav cwd "" = Except.error UErr.navMatchNotFound) ∧
     (∀ n, baseNav.find? (fun c => basename (NavNode.url c) == Release.urlPrefix rel) = some n →
        (∃ l1 l2, baseNav = l1 ++ n :: l2 ∧ basename (NavNode.url n) = Release.urlPrefix rel ∧
          ∀ m ∈ l1, basename (NavNode.url m) ≠ Release.urlPrefix rel) ∧
        indexEntry env rel nav baseNav cwd "" =
          Except.ok (pjoin "" "index.mdx",
            FsOp.write (pjoin cwd (pjoin "" "index.mdx"))
              (env.transform "<Index depth=\"1\" />\n"
                ⟨ rel, pjoin "" "index.mdx",
                  some ⟨ NavTree.path nav, NavNode.title n, NavNode.shortName n ⟩ ⟩)))) := by
  constructor
  · intro d cs hd hcs
    constructor
    · intro hnone
      simp [indexEntry, if_neg hd, hcs, hnone]
    · intro n hsome
      obtain ⟨ l1, l2, heq, hx, hall ⟩ := find?_eq_some_first _ cs n hsome
      refine ⟨ ⟨ l1, l2, heq, by simpa using hx, ?_ ⟩, ?_ ⟩
      · intro m hm
        simpa using hall m hm
      · simp [indexEntry, if_neg hd, hcs, hsome]
  · constructor
    · intro hnone
      simp [indexEntry, hnone]
    · intro n hsome
      obtain ⟨ l1, l2, heq, hx, hall ⟩ := find?_eq_some_first _ baseNav n hsome
      refine ⟨ ⟨ l1, l2, heq, by simpa using hx, ?_ ⟩, ?_ ⟩
      · intro m hm
        simpa using hall m hm
      · simp [indexEntry, hsome]

/-- Witness for C6: with the concrete navigation, the directory `guide`
matches no child of an empty navigation list and crashes, while the root
directory matches the concrete base navigation entry and writes the index
document. -/
theorem c6_index_nav_lookup_witness :
    indexEntry envW relW ⟨ "docs/lib/content/nav.yml", some [] ⟩ baseNavW "content/v9" "guide" =
      Except.error UErr.navMatchNotFound ∧
    indexEntry envW relW ⟨ "docs/lib/content/nav.yml", some [] ⟩ baseNavW "content/v9" "" =
      Except.ok ("index.mdx",
        FsOp.write "content/v9/index.mdx"
          (envW.transform "<Index depth=\"1\" />\n"
            ⟨ relW, "index.mdx",
              some ⟨ "docs/lib/content/nav.yml", "CLI v9", some "v9" ⟩ ⟩)) := by
  constructor
  · exact ((c6_index_nav_lookup envW relW ⟨ "docs/lib/content/nav.yml", some [] ⟩ baseNavW
      "content/v9").1 "guide" [] (by decide) rfl).1 rfl
  · exact (((c6_index_nav_lookup envW relW ⟨ "docs/lib/content/nav.yml", some [] ⟩ baseNavW
      "content/v9").2).2 (NavNode.mk "CLI v9" "/cli/v9" (some "v9") none none) (by rfl)).2

/-! ## C7: the changelog navigation merge -/

/-- A concrete navigation section with an empty children list. -/
def secW : NavNode := NavNode.mk "Using npm" "/using-npm" (some "using") none (some [])

/-- Counterexample to C7 as stated: the appended leaf's `url` is
`release.url + "/" + contentPath`, not `release.url + contentPath` — at the
concrete release (`url = "/cli/v9"`) and content path
`using-npm/changelog`, the pushed URL is `/cli/v9/using-npm/changelog`,
which differs from the claimed concatenation `/cli/v9using-npm/changelog`. -/
theorem c7_changelog_nav_counterexample :
    (writeChangelog envW relW (some [ secW ]) "content/v9" "CHANGELOG.md"
        (pjoin "using-npm" "changelog")).1 =
      Except.ok [ NavNode.setChildren secW
        (some [ changelogNode relW (pjoin "using-npm" "changelog") ]) ] ∧
    NavNode.url (changelogNode relW (pjoin "using-npm" "changelog")) =
      "/cli/v9/using-npm/changelog" ∧
    "/cli/v9/using-npm/changelog" ≠ Release.url relW ++ pjoin "using-npm" "changelog" := by
  refine ⟨ rfl, rfl, ?_ ⟩
  decide

/-- C7 (amended): `writeChangelog` appends exactly one new leaf — title
`"Changelog"`, url `release.url + "/" + contentPath` (the source inserts a
path separator between the two), and the fixed description — as the last
child of the last top-level navigation section, and changes no other node
of the navigation tree; the last section's child count grows by exactly
one. -/
theorem c7_changelog_nav (env : Env) (rel : Release) (cwd srcPath contentPath : String)
    (init : List NavNode) (last : NavNode) (cs : List NavNode)
    (h : NavNode.children last = some cs) :
    (writeChangelog env rel (some (init ++ [ last ])) cwd srcPath contentPath).1 =
      Except.ok (init ++
        [ NavNode.setChildren last (some (cs ++ [ changelogNode rel contentPath ])) ]) ∧
    NavNode.title (changelogNode rel contentPath) = "Changelog" ∧
    NavNode.url (changelogNode rel contentPath) = Release.url rel ++ "/" ++ contentPath ∧
    NavNode.description (changelogNode rel contentPath) =
      some "Changelog notes for each version" ∧
    (cs ++ [ changelogNode rel contentPath ]).length = cs.length + 1 := by
  refine ⟨ ?_, rfl, rfl, rfl, by simp ⟩
  simp [writeChangelog, changelogNavPush, List.getLast?_concat, List.dropLast_concat, h]

/-- Witness for the amended C7 at the concrete navigation: only the last
section gains the changelog leaf. -/
theorem c7_changelog_nav_witness :
    (writeChangelog envW relW (some navW) "content/v9" "CHANGELOG.md"
        (pjoin "using-npm" "changelog")).1 =
      Except.ok ([ NavNode.mk "Guide" "/guide" none none (some []) ] ++
        [ NavNode.setChildren
            (NavNode.mk "Using npm" "/using-npm" (some "using") none
              (some [ NavNode.mk "Scripts" "/using-npm/scripts" none none none ]))
            (some ([ NavNode.mk "Scripts" "/using-npm/scripts" none none none ] ++
              [ changelogNode relW (pjoin "using-npm" "changelog") ])) ]) :=
  (c7_changelog_nav envW relW "content/v9" "CHANGELOG.md" (pjoin "using-npm" "changelog")
    [ NavNode.mk "Guide" "/guide" none none (some []) ]
    (NavNode.mk "Using npm" "/using-npm" (some "using") none
      (some [ NavNode.mk "Scripts" "/using-npm/scripts" none none none ]))
    [ NavNode.mk "Scripts" "/using-npm/scripts" none none none ] rfl).1

/-! ## C9: tree fetching creates all directories before any write -/

/-- C9: when `unpackTree` succeeds, its effect trace is a block of `mkdir`
operations followed by a block of `write` operations: the full set of
distinct output directories implied by the fetched file list (no
duplicates) is created before any file content is written, and every
fetched file's directory is among the created ones. -/
theorem c9_tree_dirs_before_writes (env : Env) (rel : Release) (cwd dir : String)
    (files : List String) (ops : List FsOp)
    (h : unpackTree env rel cwd dir = Except.ok (files, ops)) :
    ∃ entry fl,
      (env.getDirectory (Release.branch rel) (pjoinList (splitSlash dir).dropLast)).find?
          (fun p => DirEntry.name p == (splitSlash dir).getLast?.getD "") = some entry ∧
      fl = env.getAllFiles (DirEntry.sha entry) ∧
      files = fl.map FileRec.path ∧
      ops = (jsSetDedup (fl.map (fun f => pjoin cwd (dirname (FileRec.path f))))).map FsOp.mkdir ++
        fl.map (fun f => FsOp.write (pjoin cwd (FileRec.path f))
          (env.transform (env.getFileSha (FileRec.sha f)) ⟨ rel, FileRec.path f, none ⟩)) ∧
      (jsSetDedup (fl.map (fun f => pjoin cwd (dirname (FileRec.path f))))).Nodup ∧
      (∀ f ∈ fl, FsOp.mkdir (pjoin cwd (dirname (FileRec.path f))) ∈
        (jsSetDedup (fl.map (fun g => pjoin cwd (dirname (FileRec.path g))))).map FsOp.mkdir) ∧
      (∃ dOps wOps, ops = dOps ++ wOps ∧
        (∀ op ∈ dOps, ∃ p, op = FsOp.mkdir p) ∧
        (∀ op ∈ wOps, ∃ p c, op = FsOp.write p c)) := by
  rw [unpackTree] at h
  rcases hfind : (env.getDirectory (Release.branch rel) (pjoinList (splitSlash dir).dropLast)).find?
      (fun p => DirEntry.name p == (splitSlash dir).getLast?.getD "") with _ | entry
  · rw [hfind] at h; exact absurd h (by simp)
  · rw [hfind] at h
    obtain ⟨ hfiles, hops ⟩ := Prod.mk.injEq .. ▸ Except.ok.inj h
    refine ⟨ entry, env.getAllFiles (DirEntry.sha entry), rfl, rfl, hfiles.symm, hops.symm,
      nodup_jsSetDedup _, ?_, ?_ ⟩
    · intro f hf
      exact List.mem_map_of_mem FsOp.mkdir
        ((mem_jsSetDedup _ _).mpr (List.mem_map_of_mem _ hf))
    · refine ⟨ _, _, hops.symm, ?_, ?_ ⟩
      · intro op hop
        obtain ⟨ p, -, rfl ⟩ := List.mem_map.mp hop
        exact ⟨ _, rfl ⟩
      · intro op hop
        obtain ⟨ f, -, rfl ⟩ := List.mem_map.mp hop
        exact ⟨ _, _, rfl ⟩

/-- Witness for C9 at the concrete environment, mirroring the spec's tree
scenario: the parent listing contains a wrong entry `lib` and the right
entry `content`; two files come back, and both of their directories are
created before the two writes. -/
theorem c9_tree_dirs_before_writes_witness :
    ∃ entry fl,
      (envW.getDirectory (Release.branch relW)
          (pjoinList (splitSlash "docs/lib/content").dropLast)).find?
          (fun p => DirEntry.name p == (splitSlash "docs/lib/content").getLast?.getD "") =
        some entry ∧
      fl = envW.getAllFiles (DirEntry.sha entry) ∧
      ["guide/intro.md", "cmd/a.md"] = fl.map FileRec.path ∧
      [ FsOp.mkdir "content/v9/guide", FsOp.mkdir "content/v9/cmd",
        FsOp.write "content/v9/guide/intro.md" "T(blob:f1)",
        FsOp.write "content/v9/cmd/a.md" "T(blob:f2)" ] =
        (jsSetDedup (fl.map (fun f => pjoin "content/v9" (dirname (FileRec.path f))))).map
            FsOp.mkdir ++
          fl.map (fun f => FsOp.write (pjoin "content/v9" (FileRec.path f))
            (envW.transform (envW.getFileSha (FileRec.sha f)) ⟨ relW, FileRec.path f, none ⟩)) ∧
      (jsSetDedup (fl.map (fun f => pjoin "content/v9" (dirname (FileRec.path f))))).Nodup ∧
      (∀ f ∈ fl, FsOp.mkdir (pjoin "content/v9" (dirname (FileRec.path f))) ∈
        (jsSetDedup (fl.map (fun g => pjoin "content/v9" (dirname (FileRec.path g))))).map
          FsOp.mkdir) ∧
      (∃ dOps wOps,
        [ FsOp.mkdir "content/v9/guide", FsOp.mkdir "content/v9/cmd",
          FsOp.write "content/v9/guide/intro.md" "T(blob:f1)",
          FsOp.write "content/v9/cmd/a.md" "T(blob:f2)" ] = dOps ++ wOps ∧
        (∀ op ∈ dOps, ∃ p, op = FsOp.mkdir p) ∧
        (∀ op ∈ wOps, ∃ p c, op = FsOp.write p c)) :=
  c9_tree_dirs_before_writes envW relW "content/v9" "docs/lib/content"
    [ "guide/intro.md", "cmd/a.md" ]
    [ FsOp.mkdir "content/v9/guide", FsOp.mkdir "content/v9/cmd",
      FsOp.write "content/v9/guide/intro.md" "T(blob:f1)",
      FsOp.write "content/v9/cmd/a.md" "T(blob:f2)" ] (by rfl)

/-! ## C8: the changelog `>` escape -/

/-- Modelled from the spec's words for comparison with the source's regex
replacement: escape every `'>'` that is not immediately preceded by a
backslash, including one at the very start of the text; `prev` is the
character preceding the current position, if any. -/
def specEscapeGtCh (prev : Option Char) : List Char → List Char
  | [] => []
  | c :: rest =>
    if c = '>' ∧ prev ≠ some '\\' then '\\' :: '>' :: specEscapeGtCh (some '>') rest
    else c :: specEscapeGtCh (some c) rest

/-- String wrapper for `specEscapeGtCh`, starting with no preceding
character. -/
def specEscapeGtStr (s : String) : String := String.mk (specEscapeGtCh none s.data)

/-- Counterexample to C8 as stated: in `">x"` the `'>'` is not preceded by
a backslash (nothing precedes it), so the claim demands `"\>x"`; but the
regex `([^\\])>` requires a preceding character, so the source leaves the
text unchanged. -/
theorem c8_changelog_escape_counterexample :
    escapeGtStr ">x" = ">x" ∧ specEscapeGtStr ">x" = "\\>x" ∧
    escapeGtStr ">x" ≠ specEscapeGtStr ">x" := by
  refine ⟨ rfl, rfl, ?_ ⟩
  decide

/-- No two adjacent `'>'` characters in the text (executable). -/
def noAdjGt : List Char → Bool
  | c :: d :: rest => !(c = '>' && d = '>') && noAdjGt (d :: rest)
  | _ => true

theorem noAdjGt_tail {d : Char} {rest : List Char} (h : noAdjGt (d :: rest) = true) :
    noAdjGt rest = true := by
  cases rest with
  | nil => rfl
  | cons e r =>
    rw [noAdjGt] at h
    exact (Bool.and_eq_true_iff.mp h).2

theorem noAdjGt_pair {c d : Char} {rest : List Char} (h : noAdjGt (c :: d :: rest) = true)
    (hc : c = '>') : d ≠ '>' := by
  rw [noAdjGt] at h
  have h1 := (Bool.and_eq_true_iff.mp h).1
  subst hc
  intro hd
  subst hd
  simp at h1

theorem escapeGt_eq_spec_aux :
    ∀ (n : Nat) (cs : List Char), cs.length ≤ n →
      cs.head? ≠ some '>' →
      noAdjGt cs = true →
      ∀ prev, specEscapeGtCh prev cs = escapeGtCh cs := by
  intro n
  induction n with
  | zero =>
    intro cs hlen _ _ prev
    have h0 : cs = [] := List.length_eq_zero.mp (Nat.le_zero.mp hlen)
    subst h0; rfl
  | succ n ih =>
    intro cs hlen hhead hchain prev
    match cs, hlen, hhead, hchain with
    | [], _, _, _ => rfl
    | [c], _, hhead, _ =>
      have hc : c ≠ '>' := fun h => hhead (by simp [h])
      simp [specEscapeGtCh, escapeGtCh, hc]
    | c :: d :: rest, hlen, hhead, hchain =>
      have hc : c ≠ '>' := fun h => hhead (by simp [h])
      have hchain2 : noAdjGt (d :: rest) = true := noAdjGt_tail hchain
      by_cases hd : d = '>'
      · subst hd
        by_cases hcb : c = '\\'
        · subst hcb
          rw [show escapeGtCh ('\\' :: '>' :: rest) = '\\' :: escapeGtCh ('>' :: rest) from by
            simp [escapeGtCh]]
          rw [show specEscapeGtCh prev ('\\' :: '>' :: rest) =
              '\\' :: '>' :: specEscapeGtCh (some '>') rest from by
            simp [specEscapeGtCh]]
          cases rest with
          | nil => simp [escapeGtCh, specEscapeGtCh]
          | cons e rest' =>
            have he : e ≠ '>' := noAdjGt_pair hchain2 rfl
            rw [show escapeGtCh ('>' :: e :: rest') = '>' :: escapeGtCh (e :: rest') from by
              simp [escapeGtCh, he]]
            have hrec := ih (e :: rest') (by simp at hlen ⊢; omega)
              (by simp [he]) (noAdjGt_tail hchain2) (some '>')
            rw [hrec]
        · rw [show escapeGtCh (c :: '>' :: rest) = c :: '\\' :: '>' :: escapeGtCh rest from by
            simp [escapeGtCh, hcb]]
          rw [show specEscapeGtCh prev (c :: '>' :: rest) =
              c :: specEscapeGtCh (some c) ('>' :: rest) from by
            simp [specEscapeGtCh, hc]]
          rw [show specEscapeGtCh (some c) ('>' :: rest) =
              '\\' :: '>' :: specEscapeGtCh (some '>') rest from by
            simp [specEscapeGtCh, hcb]]
          have hresthead : rest.head? ≠ some '>' := by
            cases rest with
            | nil => simp
            | cons e rest' =>
              have he := noAdjGt_pair hchain2 rfl
              simp only [List.head?_cons, ne_eq, Option.some.injEq]
              exact he
          have hrec := ih rest (by simp at hlen ⊢; omega) hresthead
            (noAdjGt_tail hchain2) (some '>')
          rw [hrec]
      · rw [show escapeGtCh (c :: d :: rest) = c :: escapeGtCh (d :: rest) from by
          simp [escapeGtCh, hd]]
        rw [show specEscapeGtCh prev (c :: d :: rest) =
            c :: specEscapeGtCh (some c) (d :: rest) from by
          simp [specEscapeGtCh, hc]]
        have hrec := ih (d :: rest) (by simp at hlen ⊢; omega) (by simp [hd]) hchain2 (some c)
        rw [hrec]

/-- C8 (amended): the source applies a single global left-to-right
replacement of the pattern `([^\\])>` with `$1\>`, so every `'>'` that is
preceded by a character — not a backslash and not a `'>'` consumed by the
previous match — is rewritten to `\>`; on texts in which no `'>'` stands at
the very start and no two `'>'` are adjacent, this escapes exactly the
`'>'` occurrences not preceded by a backslash, and in particular `foo>bar`
becomes `foo\>bar`. -/
theorem c8_changelog_escape (s : String)
    (h1 : s.data.head? ≠ some '>')
    (h2 : noAdjGt s.data = true) :
    escapeGtStr s = specEscapeGtStr s ∧ escapeGtStr "foo>bar" = "foo\\>bar" := by
  refine ⟨ ?_, rfl ⟩
  unfold escapeGtStr specEscapeGtStr
  rw [escapeGt_eq_spec_aux s.data.length s.data le_rfl h1 h2 none]

/-- Witness for the amended C8 at the concrete changelog text `foo>bar`. -/
theorem c8_changelog_escape_witness :
    (("foo>bar".data.head? ≠ some '>') ∧ noAdjGt "foo>bar".data = true) ∧
    escapeGtStr "foo>bar" = specEscapeGtStr "foo>bar" ∧
    escapeGtStr "foo>bar" = "foo\\>bar" :=
  ⟨ ⟨ by decide, by decide ⟩, c8_changelog_escape "foo>bar" (by decide) (by decide) ⟩

/-! ## C2: the tarball path filter -/

/-- A normal path segment: nonempty, not `"."`, not `".."`, slash-free. -/
def segOkCh (s : List Char) : Bool :=
  decide (s ≠ []) && decide (s ≠ [ '.' ]) && decide (s ≠ [ '.', '.' ]) && decide ('/' ∉ s)

theorem segOkCh_iff (s : List Char) :
    segOkCh s = true ↔ s ≠ [] ∧ s ≠ [ '.' ] ∧ s ≠ [ '.', '.' ] ∧ '/' ∉ s := by
  simp [segOkCh, and_assoc]

theorem splitSlashCh_ne_nil (cs : List Char) : splitSlashCh cs ≠ [] := by
  cases cs with
  | nil => simp [splitSlashCh]
  | cons c rest =>
    rw [splitSlashCh]
    split_ifs
    · simp
    · cases h : splitSlashCh rest <;> simp

theorem splitSlashCh_noslash (cs : List Char) (h : '/' ∉ cs) : splitSlashCh cs = [cs] := by
  induction cs with
  | nil => rfl
  | cons c x ih =>
    have hc : c ≠ '/' := fun hh => h (hh ▸ List.mem_cons_self c x)
    rw [splitSlashCh, if_neg hc, ih (fun hh => h (List.mem_cons_of_mem c hh))]

theorem splitSlashCh_append (x r : List Char) (h : '/' ∉ x) :
    splitSlashCh (x ++ '/' :: r) = x :: splitSlashCh r := by
  induction x with
  | nil => simp [splitSlashCh]
  | cons c x ih =>
    have hc : c ≠ '/' := fun hh => h (hh ▸ List.mem_cons_self c x)
    rw [List.cons_append, splitSlashCh, if_neg hc,
      ih (fun hh => h (List.mem_cons_of_mem c hh))]

theorem splitSlashCh_joinSlashCh :
    ∀ xs : List (List Char), xs ≠ [] → (∀ x ∈ xs, '/' ∉ x) →
      splitSlashCh (joinSlashCh xs) = xs
  | [], h, _ => absurd rfl h
  | [x], _, hx => by
      rw [joinSlashCh]
      exact splitSlashCh_noslash x (hx x (List.mem_singleton.mpr rfl))
  | x :: y :: t, _, hx => by
      rw [joinSlashCh, splitSlashCh_append x _ (hx x (List.mem_cons_self _ _)),
        splitSlashCh_joinSlashCh (y :: t) (by simp)
          (fun z hz => hx z (List.mem_cons_of_mem x hz))]

theorem joinSlashCh_inj {xs ys : List (List Char)} (hxs0 : xs ≠ []) (hys0 : ys ≠ [])
    (hxs : ∀ x ∈ xs, '/' ∉ x) (hys : ∀ y ∈ ys, '/' ∉ y)
    (h : joinSlashCh xs = joinSlashCh ys) : xs = ys := by
  rw [← splitSlashCh_joinSlashCh xs hxs0 hxs, ← splitSlashCh_joinSlashCh ys hys0 hys, h]

theorem joinSlashCh_ne_nil :
    ∀ xs : List (List Char), xs ≠ [] → (∀ x ∈ xs, x ≠ []) → joinSlashCh xs ≠ []
  | [], h, _ => absurd rfl h
  | [x], _, h => by rw [joinSlashCh]; exact h x (List.mem_singleton.mpr rfl)
  | x :: y :: t, _, _ => by
      rw [joinSlashCh]
      intro hc
      exact (List.cons_ne_nil _ _) (List.append_eq_nil.mp hc).2

theorem joinSlashCh_head? :
    ∀ (x : List Char) (t : List (List Char)), x ≠ [] →
      (joinSlashCh (x :: t)).head? = x.head?
  | x, [], _ => rfl
  | x, y :: t, hx => by
      rw [joinSlashCh]
      cases x with
      | nil => exact absurd rfl hx
      | cons c x' => rfl

theorem joinSlashCh_getLast_ne_slash :
    ∀ xs : List (List Char), xs ≠ [] → (∀ x ∈ xs, x ≠ [] ∧ '/' ∉ x) →
      (joinSlashCh xs).getLast? ≠ some '/'
  | [], h, _ => absurd rfl h
  | [x], _, h => by
      rw [joinSlashCh]
      intro hc
      exact (h x (List.mem_singleton.mpr rfl)).2 (List.mem_of_mem_getLast? hc)
  | x :: y :: t, _, h => by
      rw [joinSlashCh]
      have hyt : joinSlashCh (y :: t) ≠ [] :=
        joinSlashCh_ne_nil (y :: t) (by simp) (fun z hz => (h z (List.mem_cons_of_mem x hz)).1)
      have hih : (joinSlashCh (y :: t)).getLast? ≠ some '/' :=
        joinSlashCh_getLast_ne_slash (y :: t) (by simp)
          (fun z hz => h z (List.mem_cons_of_mem x hz))
      rw [List.getLast?_append]
      cases hj : joinSlashCh (y :: t) with
      | nil => exact absurd hj hyt
      | cons e j =>
        rw [show ('/' :: e :: j).getLast? = (e :: j).getLast? from List.getLast?_cons_cons]
        obtain ⟨ z, hz ⟩ := Option.isSome_iff_exists.mp
          (List.getLast?_isSome.mpr (List.cons_ne_nil e j))
        rw [hz]
        rw [hj, hz] at hih
        simpa using hih

theorem splitSlashCh_mem_noslash (cs : List Char) : ∀ x ∈ splitSlashCh cs, '/' ∉ x := by
  induction cs with
  | nil =>
    intro x hx
    have h0 : x = [] := by simpa [splitSlashCh] using hx
    subst h0; simp
  | cons c rest ih =>
    intro x hx
    rw [splitSlashCh] at hx
    by_cases hc : c = '/'
    · rw [if_pos hc] at hx
      rcases List.mem_cons.mp hx with rfl | h2
      · simp
      · exact ih x h2
    · rw [if_neg hc] at hx
      cases hsp : splitSlashCh rest with
      | nil => exact absurd hsp (splitSlashCh_ne_nil rest)
      | cons h t =>
        rw [hsp] at hx
        rcases List.mem_cons.mp hx with rfl | h2
        · intro hmem
          rcases List.mem_cons.mp hmem with heq | hmem2
          · exact hc heq.symm
          · exact ih h (hsp ▸ List.mem_cons_self h t) hmem2
        · exact ih x (hsp ▸ List.mem_cons_of_mem h h2)

theorem normStackCh_ok_push (abs : Bool) (st : List (List Char)) (seg : List Char)
    (h : segOkCh seg = true) : normStackCh abs st seg = seg :: st := by
  obtain ⟨ h1, h2, h3, - ⟩ := (segOkCh_iff seg).mp h
  unfold normStackCh
  rw [if_neg (by simp [h1, h2]), if_neg h3]

theorem foldl_normStackCh_ok (abs : Bool) :
    ∀ (segs st : List (List Char)), (∀ s ∈ segs, segOkCh s = true) →
      segs.foldl (normStackCh abs) st = segs.reverse ++ st := by
  intro segs
  induction segs with
  | nil => intro st _; simp
  | cons s segs ih =>
    intro st hok
    rw [List.foldl_cons, normStackCh_ok_push abs st s (hok s (List.mem_cons_self s segs)),
      ih (s :: st) (fun z hz => hok z (List.mem_cons_of_mem s hz)), List.reverse_cons]
    simp

theorem normStackCh_len (abs : Bool) (st : List (List Char)) (seg : List Char) :
    normStackCh abs st seg = seg :: st ∨ (normStackCh abs st seg).length ≤ st.length := by
  unfold normStackCh
  by_cases h1 : seg = [] ∨ seg = [ '.' ]
  · rw [if_pos h1]; right; exact le_refl _
  · rw [if_neg h1]
    by_cases h2 : seg = [ '.', '.' ]
    · rw [if_pos h2]
      cases st with
      | nil =>
        cases abs with
        | true => right; dsimp only; simp
        | false => left; simp [h2]
      | cons top rest =>
        dsimp only
        by_cases ht : top = [ '.', '.' ]
        · left; rw [if_pos ht, h2]
        · right; rw [if_neg ht]; simp
    · rw [if_neg h2]; left; rfl

theorem foldl_normStackCh_length (abs : Bool) :
    ∀ (segs st : List (List Char)),
      (segs.foldl (normStackCh abs) st).length ≤ st.length + segs.length ∧
      ((segs.foldl (normStackCh abs) st).length = st.length + segs.length →
        segs.foldl (normStackCh abs) st = segs.reverse ++ st) := by
  intro segs
  induction segs with
  | nil => intro st; simp
  | cons s segs ih =>
    intro st
    rw [List.foldl_cons]
    rcases normStackCh_len abs st s with h | h
    · rw [h]
      obtain ⟨ h1, h2 ⟩ := ih (s :: st)
      constructor
      · refine h1.trans ?_
        simp only [List.length_cons]
        omega
      · intro he
        rw [h2 (by simp at he ⊢; omega), List.reverse_cons]
        simp
    · obtain ⟨ h1, h2 ⟩ := ih (normStackCh abs st s)
      constructor
      · refine h1.trans ?_
        simp only [List.length_cons]
        omega
      · intro he
        exfalso
        have hcon := h1.trans (Nat.add_le_add_right h segs.length)
        rw [he] at hcon
        simp only [List.length_cons] at hcon
        omega

theorem normStackCh_wf (abs : Bool) (st : List (List Char)) (seg : List Char)
    (hseg : '/' ∉ seg) (hst : ∀ s ∈ st, s ≠ [] ∧ '/' ∉ s) :
    ∀ s ∈ normStackCh abs st seg, s ≠ [] ∧ '/' ∉ s := by
  unfold normStackCh
  by_cases h1 : seg = [] ∨ seg = [ '.' ]
  · rw [if_pos h1]; exact hst
  · rw [if_neg h1]
    by_cases h2 : seg = [ '.', '.' ]
    · rw [if_pos h2]
      cases st with
      | nil =>
        cases abs with
        | true => dsimp only; intro s hs; simp at hs
        | false =>
          dsimp only; intro s hs
          have h0 : s = [ '.', '.' ] := List.mem_singleton.mp hs
          subst h0; simp
      | cons top rest =>
        dsimp only
        by_cases ht : top = [ '.', '.' ]
        · rw [if_pos ht]
          intro s hs
          rcases List.mem_cons.mp hs with rfl | hs2
          · simp
          · exact hst s hs2
        · rw [if_neg ht]
          intro s hs
          exact hst s (List.mem_cons_of_mem top hs)
    · rw [if_neg h2]
      intro s hs
      rcases List.mem_cons.mp hs with rfl | hs2
      · exact ⟨ fun hh => h1 (Or.inl hh), hseg ⟩
      · exact hst s hs2

theorem foldl_normStackCh_wf (abs : Bool) :
    ∀ (segs st : List (List Char)),
      (∀ x ∈ segs, '/' ∉ x) → (∀ s ∈ st, s ≠ [] ∧ '/' ∉ s) →
      ∀ s ∈ segs.foldl (normStackCh abs) st, s ≠ [] ∧ '/' ∉ s := by
  intro segs
  induction segs with
  | nil => intro st _ hst; exact hst
  | cons s segs ih =>
    intro st hsegs hst
    rw [List.foldl_cons]
    exact ih (normStackCh abs st s)
      (fun z hz => hsegs z (List.mem_cons_of_mem s hz))
      (normStackCh_wf abs st s (hsegs s (List.mem_cons_self s segs)) hst)

theorem filter_eq_self_of_length {α : Type} (p : α → Bool) :
    ∀ l : List α, (l.filter p).length = l.length → l.filter p = l := by
  intro l
  induction l with
  | nil => intro _; rfl
  | cons a l ih =>
    intro h
    by_cases hp : p a = true
    · rw [List.filter_cons_of_pos hp] at h ⊢
      rw [ih (by simpa using h)]
    · rw [List.filter_cons_of_neg hp] at h
      have hle := List.length_filter_le p l
      simp at h
      omega

theorem joinSlashCh_head_ne_slash (xs : List (List Char)) (h0 : xs ≠ [])
    (hne : ∀ s ∈ xs, s ≠ []) (hns : ∀ s ∈ xs, '/' ∉ s) :
    ((joinSlashCh xs).head? == some '/') = false := by
  obtain ⟨ x, t, rfl ⟩ : ∃ x t, xs = x :: t := by
    cases xs with
    | nil => exact absurd rfl h0
    | cons x t => exact ⟨ x, t, rfl ⟩
  rw [joinSlashCh_head? x t (hne x (List.mem_cons_self x t))]
  cases x with
  | nil => exact absurd rfl (hne [] (List.mem_cons_self [] t))
  | cons c x' =>
    have hc : c ≠ '/' := fun hh =>
      hns (c :: x') (List.mem_cons_self _ _) (hh ▸ List.mem_cons_self c x')
    exact beq_eq_false_iff_ne.mpr (fun hh => hc (Option.some.inj hh))

theorem normPathCh_join_parts (parts : List (List Char)) (h0 : parts ≠ [])
    (hne : ∀ s ∈ parts, s ≠ []) (hns : ∀ s ∈ parts, '/' ∉ s) :
    normPathCh (joinSlashCh parts) =
      (if (parts.foldl (normStackCh false) []).reverse = [] then [ '.' ]
       else joinSlashCh (parts.foldl (normStackCh false) []).reverse) := by
  have habs := joinSlashCh_head_ne_slash parts h0 hne hns
  have hsplit := splitSlashCh_joinSlashCh parts h0 hns
  have hlast : ((joinSlashCh parts).getLast? == some '/') = false :=
    beq_eq_false_iff_ne.mpr
      (joinSlashCh_getLast_ne_slash parts h0 (fun s hs => ⟨ hne s hs, hns s hs ⟩))
  have hcore : normCore (joinSlashCh parts) =
      joinSlashCh (parts.foldl (normStackCh false) []).reverse := by
    unfold normCore
    rw [habs, hsplit]
  by_cases hnsnil : (parts.foldl (normStackCh false) []).reverse = []
  · rw [if_pos hnsnil]
    have hcore0 : normCore (joinSlashCh parts) = [] := by rw [hcore, hnsnil]; rfl
    have hbase : normBase (joinSlashCh parts) = [ '.' ] := by
      unfold normBase
      rw [if_pos ⟨ hcore0, habs ⟩]
    have hbase2 : normBase2 (joinSlashCh parts) = [ '.' ] := by
      unfold normBase2
      rw [if_neg (fun hand => by rw [hlast] at hand; exact Bool.false_ne_true hand.1), hbase]
    unfold normPathCh
    rw [habs]
    simpa using hbase2
  · rw [if_neg hnsnil]
    have hnswf : ∀ s ∈ (parts.foldl (normStackCh false) []).reverse, s ≠ [] ∧ '/' ∉ s :=
      fun s hs =>
        foldl_normStackCh_wf false parts [] hns (by simp) s (List.mem_reverse.mp hs)
    have hjoin_ne : joinSlashCh (parts.foldl (normStackCh false) []).reverse ≠ [] :=
      joinSlashCh_ne_nil _ hnsnil (fun s hs => (hnswf s hs).1)
    have hbase : normBase (joinSlashCh parts) =
        joinSlashCh (parts.foldl (normStackCh false) []).reverse := by
      unfold normBase
      rw [hcore, if_neg (fun hand => hjoin_ne hand.1)]
    have hbase2 : normBase2 (joinSlashCh parts) =
        joinSlashCh (parts.foldl (normStackCh false) []).reverse := by
      unfold normBase2
      rw [if_neg (fun hand => by rw [hlast] at hand; exact Bool.false_ne_true hand.1), hbase]
    unfold normPathCh
    rw [habs]
    simpa using hbase2

theorem pjoinListCh_ok (dp : List (List Char)) (h0 : dp ≠ [])
    (hok : ∀ s ∈ dp, segOkCh s = true) :
    pjoinListCh dp = joinSlashCh dp := by
  have hne : ∀ s ∈ dp, s ≠ [] := fun s hs => ((segOkCh_iff s).mp (hok s hs)).1
  have hns : ∀ s ∈ dp, '/' ∉ s := fun s hs => ((segOkCh_iff s).mp (hok s hs)).2.2.2
  have hfil : dp.filter (· ≠ []) = dp :=
    List.filter_eq_self.mpr (fun a ha => by simpa using hne a ha)
  unfold pjoinListCh
  rw [hfil, if_neg h0, normPathCh_join_parts dp h0 hne hns,
    foldl_normStackCh_ok false dp [] hok]
  simp [h0]

theorem pjoinListCh_eq_ok_iff (xs dp : List (List Char)) (h0 : dp ≠ [])
    (hok : ∀ s ∈ dp, segOkCh s = true)
    (hxs : ∀ x ∈ xs, '/' ∉ x)
    (hlen : xs.length ≤ dp.length) :
    pjoinListCh xs = pjoinListCh dp ↔ xs = dp := by
  have hnsd : ∀ s ∈ dp, '/' ∉ s := fun s hs => ((segOkCh_iff s).mp (hok s hs)).2.2.2
  have hdot : ([ '.' ] : List Char) ≠ joinSlashCh dp := by
    intro hd
    have hj : joinSlashCh [[ '.' ]] = joinSlashCh dp := hd
    have hinj := joinSlashCh_inj (show ([[ '.' ]] : List (List Char)) ≠ [] by simp) h0
      (by
        intro z hz
        have h0z : z = [ '.' ] := List.mem_singleton.mp hz
        subst h0z; simp) hnsd hj
    have hbad := hok [ '.' ] (hinj ▸ List.mem_singleton.mpr rfl)
    rw [segOkCh_iff] at hbad
    exact hbad.2.1 rfl
  constructor
  · intro h
    rw [pjoinListCh_ok dp h0 hok] at h
    by_cases hparts : xs.filter (· ≠ []) = []
    · unfold pjoinListCh at h
      rw [if_pos hparts] at h
      exact absurd h hdot
    · unfold pjoinListCh at h
      rw [if_neg hparts] at h
      have hpne : ∀ s ∈ xs.filter (· ≠ []), s ≠ [] := fun s hs => by
        simpa using (List.mem_filter.mp hs).2
      have hpns : ∀ s ∈ xs.filter (· ≠ []), '/' ∉ s := fun s hs =>
        hxs s (List.mem_of_mem_filter hs)
      rw [normPathCh_join_parts _ hparts hpne hpns] at h
      by_cases hnsnil : ((xs.filter (· ≠ [])).foldl (normStackCh false) []).reverse = []
      · rw [if_pos hnsnil] at h
        exact absurd h hdot
      · rw [if_neg hnsnil] at h
        have hnswf : ∀ s ∈ ((xs.filter (· ≠ [])).foldl (normStackCh false) []).reverse,
            s ≠ [] ∧ '/' ∉ s := fun s hs =>
          foldl_normStackCh_wf false (xs.filter (· ≠ [])) [] hpns (by simp) s
            (List.mem_reverse.mp hs)
        have hnd : ((xs.filter (· ≠ [])).foldl (normStackCh false) []).reverse = dp :=
          joinSlashCh_inj hnsnil h0 (fun z hz => (hnswf z hz).2) hnsd h
        have h1 : ((xs.filter (· ≠ [])).foldl (normStackCh false) []).length ≤
            (xs.filter (· ≠ [])).length := by
          have hfold := (foldl_normStackCh_length false (xs.filter (· ≠ [])) []).1
          simpa using hfold
        have h2 : (xs.filter (· ≠ [])).length ≤ xs.length := List.length_filter_le _ xs
        have h3 : dp.length = ((xs.filter (· ≠ [])).foldl (normStackCh false) []).length := by
          rw [← hnd, List.length_reverse]
        have hplen : (xs.filter (· ≠ [])).length = xs.length := by omega
        have hslen : ((xs.filter (· ≠ [])).foldl (normStackCh false) []).length =
            (xs.filter (· ≠ [])).length := by omega
        have hxp : xs.filter (· ≠ []) = xs := filter_eq_self_of_length _ xs hplen
        have hstack : (xs.filter (· ≠ [])).foldl (normStackCh false) [] =
            (xs.filter (· ≠ [])).reverse ++ [] :=
          (foldl_normStackCh_length false (xs.filter (· ≠ [])) []).2 (by simpa using hslen)
        rw [hstack] at hnd
        simp only [List.append_nil, List.reverse_reverse] at hnd
        rw [← hxp, hnd]
  · intro h
    rw [h]

theorem stringMk_inj {cs ds : List Char} (h : String.mk cs = String.mk ds) : cs = ds := by
  injection h

theorem splitSlash_data (s : String) : (splitSlash s).map String.data = splitSlashCh s.data := by
  unfold splitSlash
  rw [List.map_map]
  have hcomp : (String.data ∘ String.mk) = id := funext (fun _ => rfl)
  rw [hcomp, List.map_id]

theorem splitSlash_length (s : String) :
    (splitSlash s).length = (splitSlashCh s.data).length := by
  unfold splitSlash
  rw [List.length_map]

/-- The code's `tar` filter agrees with the spec's component-wise
comparison, for any target directory made of normal path segments. -/
theorem tarFilter_iff (dir path : String)
    (hdir : ∀ s ∈ splitSlashCh dir.data, segOkCh s = true) :
    (tarFilter (splitSlash dir) path = true ↔
      ((splitSlash path).drop 1).take (splitSlash dir).length = splitSlash dir) := by
  unfold tarFilter
  rw [beq_iff_eq]
  unfold pjoinList
  constructor
  · intro h
    have hch : pjoinListCh ((((splitSlash path).drop 1).take
          (splitSlash dir).length).map String.data) =
        pjoinListCh ((splitSlash dir).map String.data) := stringMk_inj h
    rw [List.map_take, List.map_drop, splitSlash_data, splitSlash_data,
      splitSlash_length] at hch
    have hcheq := (pjoinListCh_eq_ok_iff
      (((splitSlashCh path.data).drop 1).take (splitSlashCh dir.data).length)
      (splitSlashCh dir.data) (splitSlashCh_ne_nil _) hdir
      (fun x hx => splitSlashCh_mem_noslash path.data x
        (List.mem_of_mem_drop (List.mem_of_mem_take hx)))
      (List.length_take_le _ _)).mp hch
    have hmap : (((splitSlashCh path.data).drop 1).take
          (splitSlashCh dir.data).length).map String.mk =
        (splitSlashCh dir.data).map String.mk := by rw [hcheq]
    rw [splitSlash_length]
    show ((splitSlash path).drop 1).take (splitSlashCh dir.data).length = splitSlash dir
    unfold splitSlash
    rw [← List.map_drop, ← List.map_take]
    exact hmap
  · intro h
    rw [h]

/-- Modelled from the spec's words for comparison with the code's join-based
filter: keep an entry exactly when its path segments after the single
leading wrapper segment, up to the target directory's depth, equal the
target directory's segments component-wise. -/
def specTarKeep (dir path : String) : Bool :=
  ((splitSlash path).drop 1).take (splitSlash dir).length == splitSlash dir

/-- C2: for a target directory of normal path segments, an archive entry is
extracted if and only if, after skipping exactly one leading segment (the
archive's top-level wrapper directory), its next segments up to the target
directory's depth equal the target directory component-wise; every
surviving entry is recorded at its path stripped of (depth + 1) leading
segments and written under `cwd` at that stripped path with its content
passed through the transform (with the stripped path and release context);
all other entries are discarded without error. -/
theorem c2_tarball_extraction (env : Env) (rel : Release) (cwd dir : String)
    (hdir : ∀ s ∈ splitSlashCh dir.data, segOkCh s = true) :
    (∀ path, tarFilter (splitSlash dir) path = true ↔
      ((splitSlash path).drop 1).take (splitSlash dir).length = splitSlash dir) ∧
    (unpackTarball env rel cwd dir).1 =
      ((env.tarball (Release.spec rel) (Release.resolved rel)).filter
        (fun e => specTarKeep dir (TarEntry.path e))).map
          (fun e => stripPath ((splitSlash dir).length + 1) (TarEntry.path e)) ∧
    (unpackTarball env rel cwd dir).2 =
      ((env.tarball (Release.spec rel) (Release.resolved rel)).filter
        (fun e => specTarKeep dir (TarEntry.path e))).map
          (fun e => FsOp.write
            (pjoin cwd (stripPath ((splitSlash dir).length + 1) (TarEntry.path e)))
            (env.transform (TarEntry.content e)
              ⟨ rel, stripPath ((splitSlash dir).length + 1) (TarEntry.path e), none ⟩)) := by
  have hcongr : ∀ l : List TarEntry,
      l.filter (fun e => tarFilter (splitSlash dir) (TarEntry.path e)) =
      l.filter (fun e => specTarKeep dir (TarEntry.path e)) := by
    intro l
    apply List.filter_congr
    intro e he
    unfold specTarKeep
    cases hb : tarFilter (splitSlash dir) (TarEntry.path e) with
    | true =>
      exact (beq_iff_eq.mpr ((tarFilter_iff dir (TarEntry.path e) hdir).mp hb)).symm
    | false =>
      refine (beq_eq_false_iff_ne.mpr ?_).symm
      intro hc
      rw [(tarFilter_iff dir (TarEntry.path e) hdir).mpr hc] at hb
      cases hb
  refine ⟨ fun path => tarFilter_iff dir path hdir, ?_, ?_ ⟩
  · simp only [unpackTarball]
    rw [hcongr]
  · simp only [unpackTarball]
    rw [hcongr]

/-- Witness for C2, mirroring the spec's archive scenario: the concrete
archive holds `pkg-1.0.0/docs/content/guide/intro.md` (plus a README and a
file under `docs/lib/content`); with target dir `docs/content` exactly one
file is recorded, at relative path `guide/intro.md`, and written with
transformed content. -/
theorem c2_tarball_extraction_witness :
    (∀ s ∈ splitSlashCh ("docs/content" : String).data, segOkCh s = true) ∧
    (unpackTarball envW relW "content/v9" "docs/content").1 = [ "guide/intro.md" ] ∧
    (unpackTarball envW relW "content/v9" "docs/content").2 =
      [ FsOp.write "content/v9/guide/intro.md" "T(C1)" ] := by
  refine ⟨ by decide, ?_, ?_ ⟩
  · rw [(c2_tarball_extraction envW relW "content/v9" "docs/content" (by decide)).2.1]
    rfl
  · rw [(c2_tarball_extraction envW relW "content/v9" "docs/content" (by decide)).2.2]
    rfl

/-! ## C10: the orchestrator's extraction directories -/

theorem unpackReleaseBody_trace (env : Env) (r : Release) (o : UnpackOpts) (cwd : String)
    (src navp : String)
    (hsrc : probeSrc env (Release.branch r) = some src)
    (hnav : probeNav env (Release.branch r) = some navp) :
    ∀ files exOps,
      (if Release.useBranch { r with src := some src }
        then unpackTree env { r with src := some src } cwd src
        else Except.ok (unpackTarball env { r with src := some src } cwd builtPathConst)) =
        Except.ok (files, exOps) →
      (∃ rest, (unpackReleaseBody env r o cwd).2 = exOps ++ rest) ∧
      (∀ res, (unpackReleaseBody env r o cwd).1 = Except.ok res →
        Release.src (ReleaseResult.release res) = some src) := by
  intro files exOps hex
  unfold unpackReleaseBody
  rw [hsrc]
  dsimp only
  rw [show probeNav env (Release.branch { r with src := some src }) =
      probeNav env (Release.branch r) from rfl, hnav]
  dsimp only
  rw [hex]
  dsimp only
  rcases hidx : collectIdx
      ((indexDirs files).map
        (fun d => indexEntry env { r with src := some src }
          (getNav env { r with src := some src } navp) o.baseNav cwd d)) with
    ⟨ idxRes, idxOps ⟩
  cases idxRes with
  | error e =>
    constructor
    · exact ⟨ idxOps, rfl ⟩
    · intro res hres0
      cases hres0
  | ok idx =>
    cases hcl : changelogNavPush { r with src := some src } (pjoin "using-npm" "changelog")
        (NavTree.children (getNav env { r with src := some src } navp)) with
    | error e =>
      rw [show writeChangelog env { r with src := some src }
            (NavTree.children (getNav env { r with src := some src } navp)) cwd
            "CHANGELOG.md" (pjoin "using-npm" "changelog") =
          (changelogNavPush { r with src := some src } (pjoin "using-npm" "changelog")
            (NavTree.children (getNav env { r with src := some src } navp)),
           [ FsOp.write (pjoin cwd (pjoin "using-npm" "changelog" ++ ".md"))
              (env.transform (escapeGtStr (env.getFileRefPath
                (Release.branch { r with src := some src }) "CHANGELOG.md"))
                ⟨ { r with src := some src }, pjoin "using-npm" "changelog",
                  some ⟨ "CHANGELOG.md", "Changelog", none ⟩ ⟩) ]) from rfl, hcl]
      dsimp only
      constructor
      · exact ⟨ idxOps ++ _, List.append_assoc _ _ _ ⟩
      · intro res hres0
        cases hres0
    | ok newChildren =>
      rw [show writeChangelog env { r with src := some src }
            (NavTree.children (getNav env { r with src := some src } navp)) cwd
            "CHANGELOG.md" (pjoin "using-npm" "changelog") =
          (changelogNavPush { r with src := some src } (pjoin "using-npm" "changelog")
            (NavTree.children (getNav env { r with src := some src } navp)),
           [ FsOp.write (pjoin cwd (pjoin "using-npm" "changelog" ++ ".md"))
              (env.transform (escapeGtStr (env.getFileRefPath
                (Release.branch { r with src := some src }) "CHANGELOG.md"))
                ⟨ { r with src := some src }, pjoin "using-npm" "changelog",
                  some ⟨ "CHANGELOG.md", "Changelog", none ⟩ ⟩) ]) from rfl, hcl]
      dsimp only
      constructor
      · exact ⟨ idxOps ++ _, List.append_assoc _ _ _ ⟩
      · intro res hres0
        obtain rfl := (Except.ok.inj hres0).symm
        rfl

/-- C10: for a release with `useBranch = false`, the orchestrator extracts
the archive with the fixed target directory `docs/content`, regardless of
which candidate path the source-directory probe assigned to `release.src`
(even when it resolved to `docs/lib/content`); the probed value only ends
up in the returned record's `src` field.  The tree-fetch path
(`useBranch = true`) does extract from the probed `release.src`. -/
theorem c10_extraction_dirs (env : Env) (rel : Release) (o : UnpackOpts) (r : Release)
    (src navp : String)
    (hres : resolveRelease env rel ⟨ o.force, o.prerelease ⟩ = some r)
    (hsrc : probeSrc env (Release.branch r) = some src)
    (hnav : probeNav env (Release.branch r) = some navp) :
    builtPathConst = "docs/content" ∧
    (Release.useBranch r = false →
      (∃ rest, (unpackRelease env rel o).2 =
        FsOp.rm (pjoin o.contentPath (Release.id r)) ::
        FsOp.mkdir (pjoin o.contentPath (Release.id r)) ::
        ((unpackTarball env { r with src := some src }
          (pjoin o.contentPath (Release.id r)) builtPathConst).2 ++ rest)) ∧
      (∀ out, (unpackRelease env rel o).1 = Except.ok (some out) →
        Release.src (ReleaseResult.release out) = some src)) ∧
    (Release.useBranch r = true →
      ∀ fl ops, unpackTree env { r with src := some src }
          (pjoin o.contentPath (Release.id r)) src = Except.ok (fl, ops) →
        ∃ rest, (unpackRelease env rel o).2 =
          FsOp.rm (pjoin o.contentPath (Release.id r)) ::
          FsOp.mkdir (pjoin o.contentPath (Release.id r)) :: (ops ++ rest)) := by
  have hbody := unpackReleaseBody_trace env r o (pjoin o.contentPath (Release.id r))
    src navp hsrc hnav
  refine ⟨ rfl, ?_, ?_ ⟩
  · intro hub
    have hex : (if Release.useBranch { r with src := some src }
        then unpackTree env { r with src := some src }
          (pjoin o.contentPath (Release.id r)) src
        else Except.ok (unpackTarball env { r with src := some src }
          (pjoin o.contentPath (Release.id r)) builtPathConst)) =
        Except.ok ((unpackTarball env { r with src := some src }
            (pjoin o.contentPath (Release.id r)) builtPathConst).1,
          (unpackTarball env { r with src := some src }
            (pjoin o.contentPath (Release.id r)) builtPathConst).2) := by
      have hub' : Release.useBranch { r with src := some src } = false := hub
      rw [if_neg (fun h => Bool.false_ne_true (hub' ▸ h))]
    obtain ⟨ hrest, hsrcout ⟩ := hbody _ _ hex
    constructor
    · obtain ⟨ rest, hr2 ⟩ := hrest
      refine ⟨ rest, ?_ ⟩
      unfold unpackRelease
      rw [hres]
      dsimp only
      rw [hr2]
    · intro out hout
      unfold unpackRelease at hout
      rw [hres] at hout
      dsimp only at hout
      cases hb : (unpackReleaseBody env r o (pjoin o.contentPath (Release.id r))).1 with
      | error e =>
        rw [hb] at hout
        cases hout
      | ok res =>
        rw [hb] at hout
        have hro : res = out := by
          have hmap : Except.ok (some res) =
              (Except.ok (some out) : Except UErr (Option ReleaseResult)) := hout
          exact Option.some.inj (Except.ok.inj hmap)
        exact hro ▸ hsrcout res hb
  · intro hub fl ops htree
    have hex : (if Release.useBranch { r with src := some src }
        then unpackTree env { r with src := some src }
          (pjoin o.contentPath (Release.id r)) src
        else Except.ok (unpackTarball env { r with src := some src }
          (pjoin o.contentPath (Release.id r)) builtPathConst)) =
        Except.ok (fl, ops) := by
      have hub' : Release.useBranch { r with src := some src } = true := hub
      rw [if_pos hub']
      exact htree
    obtain ⟨ hrest, - ⟩ := hbody _ _ hex
    obtain ⟨ rest, hr2 ⟩ := hrest
    refine ⟨ rest, ?_ ⟩
    unfold unpackRelease
    rw [hres]
    dsimp only
    rw [hr2]

/-- Witness for C10: with the concrete environment the probe resolves
`release.src` to `docs/lib/content`, yet the archive extraction runs with
target directory `docs/content` and the returned record's `src` is the
probed path. -/
theorem c10_extraction_dirs_witness :
    (∃ rest, (unpackRelease envW relW optsW).2 =
      FsOp.rm (pjoin "content" "v9") :: FsOp.mkdir (pjoin "content" "v9") ::
      ((unpackTarball envW
          { relW with
              resolved := some "sha-abc"
              spec := some "npm@9.0.0"
              src := some "docs/lib/content" }
          (pjoin "content" "v9") builtPathConst).2 ++ rest)) ∧
    (∀ out, (unpackRelease envW relW optsW).1 = Except.ok (some out) →
      Release.src (ReleaseResult.release out) = some "docs/lib/content") :=
  (c10_extraction_dirs envW relW optsW
    { relW with resolved := some "sha-abc", spec := some "npm@9.0.0" }
    "docs/lib/content" "docs/lib/content/nav.yml" rfl rfl rfl).2.1 rfl
